import Mathlib

/-!
Verification of the project-factory content-dispatch pipeline.

The Rust sources are shallowly embedded: pure functions become Lean
functions, machine integers become naturals reduced modulo two to the
sixty-fourth power where the width matters, stateful code becomes explicit
state passing or an inductive step relation, and side effects on the file
system become explicit event traces.  External collaborators (the regex
engine, the UTF-8 lossy decoder, the serde_json parser, the random number
generator) are taken as function parameters, so every theorem quantifies
over their behaviour.
-/

namespace Factory

/-! ### plugin.rs: data model -/

/-- src/plugin.rs: `InputType` — where the plugin reads its input from. -/
inductive InputType
  | file
  | stdin
deriving DecidableEq, Repr

/-- src/plugin.rs: `OutputType` — where the plugin writes its output. -/
inductive OutputType
  | file
  | dir
  | stdout
deriving DecidableEq, Repr

/-- src/plugin.rs: `Plugin` — a declared external processor. -/
structure Plugin where
  name : String
  path : String
  args : Option (List String)
  input : Option InputType
  output : Option OutputType
  unpacker : Option Bool
deriving DecidableEq, Repr

/-! ### plugin.rs: `replace_arg` (claim C6)

The Rust function collects the indices of all arguments that are exactly
equal to the token, then for each collected index removes the element at
that index and re-inserts the replacement at the same index. -/

/-- src/plugin.rs `replace_arg`: the collected indices — positions whose
element equals `var` (Rust: `args.iter().enumerate().filter(|x| x.1 == var)`). -/
def matchIdxs (args : List String) (var : String) : List Nat :=
  ((args.enum).filter (fun x => x.2 = var)).map (fun x => x.1)

/-- src/plugin.rs `replace_arg`: for each collected index, `args.remove(idx)`
followed by `args.insert(idx, rep)`. -/
def replace_arg (args : List String) (var rep : String) : List String :=
  (matchIdxs args var).foldl (fun acc idx => (acc.eraseIdx idx).insertIdx idx rep) args

/-- Removing the element at a valid index and inserting another at the same
index is exactly `List.set`. -/
theorem eraseIdx_insertIdx_eq_set (l : List String) (i : Nat) (x : String)
    (h : i < l.length) : (l.eraseIdx i).insertIdx i x = l.set i x := by
  induction l generalizing i with
  | nil => simp at h
  | cons a t ih =>
    cases i with
    | zero => simp [List.eraseIdx, List.insertIdx, List.set]
    | succ n =>
      simp only [List.eraseIdx, List.insertIdx_succ_cons, List.set]
      rw [ih n (by simpa using h)]

/-- The collected indices are exactly the positions holding `var`. -/
theorem mem_matchIdxs (args : List String) (var : String) (i : Nat) :
    i ∈ matchIdxs args var ↔ args[i]? = some var := by
  simp only [matchIdxs, List.mem_map, List.mem_filter]
  constructor
  · rintro ⟨⟨j, a⟩, ⟨hmem, hv⟩, hfst⟩
    simp only at hfst hv
    rw [List.mk_mem_enum_iff_getElem?] at hmem
    subst hfst
    simpa [decide_eq_true_eq.mp hv] using hmem
  · intro h
    refine ⟨(i, var), ⟨?_, by simp⟩, rfl⟩
    rw [List.mk_mem_enum_iff_getElem?]
    exact h

/-- Folding `List.set` over a list of indices: positions in the index list
become `rep` (when in range), other positions are untouched. -/
theorem foldl_set_getElem? (rep : String) (idxs : List Nat) (l : List String) (j : Nat) :
    (idxs.foldl (fun acc i => acc.set i rep) l)[j]? =
      if j ∈ idxs then (l[j]?).map (fun _ => rep) else l[j]? := by
  induction idxs generalizing l with
  | nil => simp
  | cons i rest ih =>
    simp only [List.foldl_cons, ih (l.set i rep), List.mem_cons]
    by_cases hj : j ∈ rest
    · simp only [hj, if_true, or_true]
      rw [List.getElem?_set']
      by_cases hij : i = j
      · subst hij
        simp [Option.map_map, Function.comp_def, Function.const]
      · simp [hij]
    · simp only [hj, if_false]
      by_cases hij : j = i
      · subst hij
        simp only [true_or, if_true, List.getElem?_set_self']
        rfl
      · rw [List.getElem?_set_ne (by omega)]
        simp [hij]

/-- The remove-then-insert fold of `replace_arg` is the `List.set` fold, as
long as every index is in range. -/
theorem fold_erase_insert_eq_fold_set (rep : String) (idxs : List Nat) (l : List String)
    (h : ∀ i ∈ idxs, i < l.length) :
    idxs.foldl (fun acc idx => (acc.eraseIdx idx).insertIdx idx rep) l =
      idxs.foldl (fun acc i => acc.set i rep) l := by
  induction idxs generalizing l with
  | nil => rfl
  | cons i rest ih =>
    simp only [List.foldl_cons]
    rw [eraseIdx_insertIdx_eq_set l i rep (h i (by simp))]
    exact ih (l.set i rep) (fun k hk => by
      have hk2 := h k (List.mem_cons_of_mem i hk)
      simpa using hk2)

/-- Claim C6: `$INPUT`/`$OUTPUT` substitution during plugin preparation
replaces precisely the argument strings exactly equal to the token with the
replacement, leaves every other argument (including those merely containing
the token as a substring) unchanged, and preserves the number and order of
arguments: `replace_arg` is the pointwise exact-match substitution map. -/
theorem replace_arg_eq_map (args : List String) (var rep : String) :
    replace_arg args var rep = args.map (fun a => if a = var then rep else a) := by
  have hrange : ∀ i ∈ matchIdxs args var, i < args.length := by
    intro i hi
    rw [mem_matchIdxs] at hi
    by_contra hc
    rw [show args[i]? = none from List.getElem?_eq_none_iff.mpr (by omega)] at hi
    exact Option.noConfusion hi
  rw [replace_arg, fold_erase_insert_eq_fold_set rep _ _ hrange]
  apply List.ext_getElem?
  intro j
  rw [foldl_set_getElem?, List.getElem?_map]
  cases h : args[j]? with
  | none =>
    have : j ∉ matchIdxs args var := by
      rw [mem_matchIdxs, h]
      simp
    simp [this, h]
  | some a =>
    by_cases hv : a = var
    · subst hv
      have : j ∈ matchIdxs args a := by rw [mem_matchIdxs]; exact h
      simp [this, h]
    · have : j ∉ matchIdxs args var := by
        rw [mem_matchIdxs, h]
        simp [hv]
      simp [this, h, hv]

/-! ### output.rs / input.rs: TaskId and the input factory (claim C7) -/

/-- The modulus of Rust's `u64`. -/
def U64MOD : Nat := 2 ^ 64

/-- src/output.rs: `TaskId` — the identifier of the creating worker thread
paired with the 64-bit value drawn from the factory counter. -/
structure TaskId where
  thread : Nat
  counter : Nat
deriving DecidableEq, Repr

/-- src/input.rs: `InputFactory` holds the shared atomic `u64` counter
`last_id`; the stored value is always reduced modulo `U64MOD`. -/
structure InputFactory where
  last_id : Nat
deriving DecidableEq, Repr

/-- src/input.rs `InputFactory::new`: the counter starts at zero. -/
def InputFactory.new : InputFactory := { last_id := 0 }

/-- src/input.rs `new_input`: `self.last_id.fetch_add(1, Ordering::Relaxed)`
returns the previous value and stores the incremented value, wrapping as a
`u64` on overflow. -/
def fetch_add (f : InputFactory) : Nat × InputFactory :=
  (f.last_id % U64MOD, { last_id := (f.last_id % U64MOD + 1) % U64MOD })

/-- The factory state after `k` calls to `new_input` on the shared factory.
`fetch_add` is atomic, so however worker calls interleave, the k-th call
(0-indexed) observes the state after `k` earlier calls. -/
def factoryAfter : Nat → InputFactory
  | 0 => InputFactory.new
  | k + 1 => (fetch_add (factoryAfter k)).2

/-- The `u64` component of the `TaskId` drawn by the k-th call to
`new_input`. -/
def nthTaskU64 (k : Nat) : Nat := (fetch_add (factoryAfter k)).1

theorem one_lt_U64MOD : 1 < U64MOD := by norm_num [U64MOD]

/-- Closed form of the factory counter: the k-th call draws `k` modulo
two to the sixty-fourth. -/
theorem succ_mod_U64MOD (a : Nat) : (a % U64MOD + 1) % U64MOD = (a + 1) % U64MOD := by
  conv_rhs => rw [Nat.add_mod]
  rw [Nat.mod_eq_of_lt one_lt_U64MOD]

/-- Closed form of the factory counter: the k-th call draws `k` modulo
two to the sixty-fourth. -/
theorem nthTaskU64_eq (k : Nat) : nthTaskU64 k = k % U64MOD := by
  have hfac : ∀ m, factoryAfter m = { last_id := m % U64MOD } := by
    intro m
    induction m with
    | zero => rfl
    | succ m ih =>
      show (fetch_add (factoryAfter m)).2 = _
      rw [ih]
      simp only [fetch_add, InputFactory.mk.injEq]
      rw [Nat.mod_mod_of_dvd m (dvd_refl U64MOD)]
      exact succ_mod_U64MOD m
  rw [nthTaskU64, hfac, fetch_add]
  exact Nat.mod_mod_of_dvd k (dvd_refl U64MOD)

/-! ### plugin.rs `gen_path` / main.rs `Gen` (claim C8) -/

/-- Rust `format!` with format spec 016x: one lowercase hex digit. -/
def hexDigitLower (d : Nat) : Char :=
  if d < 10 then Char.ofNat (48 + d) else Char.ofNat (87 + d)

/-- Fixed-width base-16 digit expansion, most significant digit first: the
digit list printed by format spec 016x when `w = 16`. -/
def digitsFix : Nat → Nat → List Nat
  | 0, _ => []
  | w + 1, n => (n / 16 ^ w) :: digitsFix w (n % 16 ^ w)

/-- src/plugin.rs `gen_path`: `format!("{:016x}", r)` for a `u64` value
`r` — sixteen lowercase hex digits, zero padded. -/
def hexPad16 (r : Nat) : String :=
  String.mk ((digitsFix 16 (r % U64MOD)).map hexDigitLower)

/-- src/plugin.rs `gen_path`: the current directory with the sixteen-digit
hex name pushed as a final path component.  The `u64` argument is the value
drawn from `rand::random()`, an external entropy source. -/
def gen_path (cwd : List String) (r : Nat) : List String :=
  cwd ++ [hexPad16 r]

/-- One process run draws a sequence `rs` of random `u64` values; the i-th
call to `gen_path` returns the path built from the i-th draw. -/
def gen_path_run (cwd : List String) (rs : List Nat) (i : Nat) : List String :=
  gen_path cwd (rs.getD i 0)

/-- Evaluating the digit fold. -/
def fromD (l : List Nat) : Nat := l.foldl (fun acc d => acc * 16 + d) 0

theorem fromD_foldl_acc (l : List Nat) (acc : Nat) :
    l.foldl (fun acc d => acc * 16 + d) acc = acc * 16 ^ l.length + fromD l := by
  induction l generalizing acc with
  | nil => simp [fromD]
  | cons d t ih =>
    simp only [List.foldl_cons, List.length_cons, fromD]
    rw [ih (acc * 16 + d), ih (0 * 16 + d)]
    ring

theorem digitsFix_length (w n : Nat) : (digitsFix w n).length = w := by
  induction w generalizing n with
  | zero => rfl
  | succ w ih => simp [digitsFix, ih]

/-- The fixed-width expansion is a faithful representation below `16 ^ w`. -/
theorem fromD_digitsFix (w n : Nat) (h : n < 16 ^ w) : fromD (digitsFix w n) = n := by
  induction w generalizing n with
  | zero =>
    interval_cases n
    rfl
  | succ w ih =>
    have hm : n % 16 ^ w < 16 ^ w := Nat.mod_lt _ (Nat.pos_pow_of_pos w (by norm_num))
    simp only [digitsFix, fromD, List.foldl_cons]
    rw [show (0 * 16 + n / 16 ^ w) = n / 16 ^ w by ring]
    rw [fromD_foldl_acc, digitsFix_length, ih _ hm]
    exact Nat.div_add_mod' n (16 ^ w)

/-- Every digit of the fixed-width expansion is below 16. -/
theorem digitsFix_lt (w n : Nat) (h : n < 16 ^ w) : ∀ d ∈ digitsFix w n, d < 16 := by
  induction w generalizing n with
  | zero => simp [digitsFix]
  | succ w ih =>
    intro d hd
    simp only [digitsFix, List.mem_cons] at hd
    rcases hd with hd | hd
    · subst hd
      rw [Nat.div_lt_iff_lt_mul (Nat.pos_pow_of_pos w (by norm_num))]
      exact lt_of_lt_of_eq h (by rw [pow_succ, Nat.mul_comm])
    · exact ih _ (Nat.mod_lt _ (Nat.pos_pow_of_pos w (by norm_num))) d hd

theorem hexDigitLower_inj : ∀ d1 < 16, ∀ d2 < 16, hexDigitLower d1 = hexDigitLower d2 → d1 = d2 := by
  decide

theorem map_hexDigitLower_inj (l1 l2 : List Nat)
    (h1 : ∀ d ∈ l1, d < 16) (h2 : ∀ d ∈ l2, d < 16)
    (h : l1.map hexDigitLower = l2.map hexDigitLower) : l1 = l2 := by
  induction l1 generalizing l2 with
  | nil => cases l2 <;> simp_all
  | cons a t ih =>
    cases l2 with
    | nil => simp_all
    | cons b t2 =>
      simp only [List.map_cons, List.cons.injEq] at h
      have ha : a = b :=
        hexDigitLower_inj a (h1 a (by simp)) b (h2 b (by simp)) h.1
      have ht : t = t2 :=
        ih t2 (fun d hd => h1 d (List.mem_cons_of_mem a hd))
          (fun d hd => h2 d (List.mem_cons_of_mem b hd)) h.2
      rw [ha, ht]

/-- The sixteen-digit hex formatter is injective on `u64` values. -/
theorem hexPad16_inj (r1 r2 : Nat) (h1 : r1 < U64MOD) (h2 : r2 < U64MOD)
    (h : hexPad16 r1 = hexPad16 r2) : r1 = r2 := by
  have hb : U64MOD = 16 ^ 16 := by norm_num [U64MOD]
  have hr1 : r1 % U64MOD = r1 := Nat.mod_eq_of_lt h1
  have hr2 : r2 % U64MOD = r2 := Nat.mod_eq_of_lt h2
  have hlt1 : r1 < 16 ^ 16 := hb ▸ h1
  have hlt2 : r2 < 16 ^ 16 := hb ▸ h2
  have hmaps : (digitsFix 16 r1).map hexDigitLower = (digitsFix 16 r2).map hexDigitLower := by
    have := congrArg String.data h
    simpa [hexPad16, hr1, hr2] using this
  have hdig : digitsFix 16 r1 = digitsFix 16 r2 :=
    map_hexDigitLower_inj _ _ (digitsFix_lt 16 r1 hlt1) (digitsFix_lt 16 r2 hlt2) hmaps
  calc r1 = fromD (digitsFix 16 r1) := (fromD_digitsFix 16 r1 hlt1).symm
    _ = fromD (digitsFix 16 r2) := by rw [hdig]
    _ = r2 := fromD_digitsFix 16 r2 hlt2

/-! ### output.rs: the structured record emitter `copy_output` (claim C1) -/

/-- The JSON value model (serde_json `Value`).  Numbers are modelled as
integers; the record emitter never constructs numbers itself and every
theorem about it quantifies over the parser, so the restriction does not
weaken any statement proved here. -/
inductive Json
  | null
  | bool (b : Bool)
  | num (i : Int)
  | str (s : String)
  | arr (xs : List Json)
  | obj (fields : List (String × Json))

/-- Decimal digit accumulation for integer serialization (itoa-style,
most significant digit first). -/
def natDecimalAux : Nat → List Char → List Char
  | n, acc =>
    if n < 10 then hexDigitLower n :: acc
    else natDecimalAux (n / 10) (hexDigitLower (n % 10) :: acc)
termination_by n => n
decreasing_by exact Nat.div_lt_self (by omega) (by norm_num)

def natDecimal (n : Nat) : List Char := natDecimalAux n []

/-- serde_json's integer serialization: optional minus sign and decimal
digits. -/
def intDecimal (i : Int) : List Char :=
  if i < 0 then '-' :: natDecimal i.natAbs else natDecimal i.toNat

/-- serde_json's string escaping: quote, backslash and the C0 control
characters are escaped (with the two-character forms for backspace, tab,
line feed, form feed, carriage return); everything else is emitted raw. -/
def escapeChar (c : Char) : List Char :=
  if c = '"' then ['\\', '"']
  else if c = '\\' then ['\\', '\\']
  else if c.toNat = 8 then ['\\', 'b']
  else if c = '\t' then ['\\', 't']
  else if c = '\n' then ['\\', 'n']
  else if c.toNat = 12 then ['\\', 'f']
  else if c = '\r' then ['\\', 'r']
  else if c.toNat < 32 then
    ['\\', 'u', '0', '0', hexDigitLower (c.toNat / 16), hexDigitLower (c.toNat % 16)]
  else [c]

def escapeChars (cs : List Char) : List Char := (cs.map escapeChar).flatten

/-- A serialized JSON string literal. -/
def jsonQuote (s : String) : List Char := '"' :: (escapeChars s.data ++ ['"'])

def lbraceCh : Char := Char.ofNat 123

def rbraceCh : Char := Char.ofNat 125

mutual

/-- serde_json compact serialization (`serde_json::to_writer`). -/
def serializeJson : Json → List Char
  | .null => "null".toList
  | .bool b => if b then "true".toList else "false".toList
  | .num i => intDecimal i
  | .str s => jsonQuote s
  | .arr xs => '[' :: (serializeArr xs ++ [']'])
  | .obj fs => lbraceCh :: (serializeObj fs ++ [rbraceCh])

def serializeArr : List Json → List Char
  | [] => []
  | [x] => serializeJson x
  | x :: y :: rest => serializeJson x ++ ',' :: serializeArr (y :: rest)

def serializeObj : List (String × Json) → List Char
  | [] => []
  | [(k, v)] => jsonQuote k ++ ':' :: serializeJson v
  | (k, v) :: p :: rest =>
    (jsonQuote k ++ ':' :: serializeJson v) ++ ',' :: serializeObj (p :: rest)

end

/-- Rust `char::is_whitespace`: the Unicode White_Space property. -/
def rustIsWhitespace (c : Char) : Bool :=
  let n := c.toNat
  n = 9 || n = 10 || n = 11 || n = 12 || n = 13 || n = 32 || n = 133 || n = 160 ||
  n = 5760 || (8192 ≤ n && n ≤ 8202) || n = 8232 || n = 8233 || n = 8239 ||
  n = 8287 || n = 12288

/-- Rust `str::trim_end`: remove every trailing character with the Unicode
White_Space property. -/
def trimEndChars (cs : List Char) : List Char :=
  (cs.reverse.dropWhile rustIsWhitespace).reverse

/-- src/output.rs `copy_output`, per-line payload: `serde_json::from_str` of
the trimmed line when it parses, otherwise the trimmed line as a JSON
string.  The parser is a parameter standing for serde_json. -/
def payloadOf (parse : String → Option Json) (line : List Char) : Json :=
  let s := String.mk (trimEndChars line)
  match parse s with
  | some j => j
  | none => Json.str s

/-- src/output.rs `copy_output`, per-line record.  The serde_json `Map` is a
BTreeMap, so the inserted keys plugin, path, type, data serialize in sorted
key order: data, path, plugin, type. -/
def mkRecord (parse : String → Option Json) (plugin_name item_path item_type : String)
    (line : List Char) : Json :=
  Json.obj [("data", payloadOf parse line), ("path", Json.str item_path),
    ("plugin", Json.str plugin_name), ("type", Json.str item_type)]

/-- src/output.rs `copy_output`, one loop iteration's write: the serialized
record with the pushed newline, written with a single `write_all`. -/
def emitLine (parse : String → Option Json) (pn ip it : String) (line : List Char) : List Char :=
  serializeJson (mkRecord parse pn ip it line) ++ ['\n']

/-- src/output.rs `copy_output`, the read loop: `read_line` accumulates
characters of the stream into `in_buf` (held here in reverse) until it
appends a line feed or hits end of input; each completed line is emitted as
one record.  The final `read_line` returns 0 on an empty buffer and the
loop exits without emitting. -/
def copy_output_aux (parse : String → Option Json) (pn ip it : String)
    (buf : List Char) : List Char → List Char
  | [] => if buf = [] then [] else emitLine parse pn ip it buf.reverse
  | c :: rest =>
    if c = '\n' then
      emitLine parse pn ip it (buf.reverse ++ ['\n']) ++
        copy_output_aux parse pn ip it [] rest
    else
      copy_output_aux parse pn ip it (c :: buf) rest

/-- src/output.rs `copy_output`: read lines until end of input, emitting one
record per line. -/
def copy_output (parse : String → Option Json) (pn ip it : String) (cs : List Char) :
    List Char :=
  copy_output_aux parse pn ip it [] cs

/-- The line decomposition of a character stream: chunks end after each line
feed; a final chunk without a line feed is kept. -/
def readLines (cs : List Char) : List (List Char) :=
  cs.foldr
    (fun c acc =>
      if c = '\n' then [c] :: acc
      else
        match acc with
        | [] => [[c]]
        | l :: ls => (c :: l) :: ls)
    []

theorem readLines_append_nl (p rest : List Char) (hp : '\n' ∉ p) :
    readLines (p ++ '\n' :: rest) = (p ++ ['\n']) :: readLines rest := by
  induction p with
  | nil => simp [readLines]
  | cons a p ih =>
    have ha : a ≠ '\n' := fun h => hp (h ▸ List.mem_cons_self a p)
    have ihp := ih (fun h => hp (List.mem_cons_of_mem a h))
    simp only [List.cons_append, readLines, List.foldr_cons, ha, if_false]
    simp only [readLines] at ihp
    rw [ihp]

theorem readLines_no_nl (l : List Char) (hl : '\n' ∉ l) (hne : l ≠ []) :
    readLines l = [l] := by
  induction l with
  | nil => exact absurd rfl hne
  | cons a t ih =>
    have ha : a ≠ '\n' := fun h => hl (h ▸ List.mem_cons_self a t)
    simp only [readLines, List.foldr_cons, ha, if_false]
    cases t with
    | nil => rfl
    | cons b t2 =>
      have iht := ih (fun h => hl (List.mem_cons_of_mem a h)) (by simp)
      simp only [readLines] at iht
      rw [iht]

/-- The read loop emits exactly one record per line of the stream (with the
buffer accumulated so far as the prefix of the first line). -/
theorem copy_output_aux_eq (parse : String → Option Json) (pn ip it : String)
    (cs : List Char) : ∀ buf, '\n' ∉ buf →
    copy_output_aux parse pn ip it buf cs =
      (readLines (buf.reverse ++ cs)).foldr
        (fun l acc => emitLine parse pn ip it l ++ acc) [] := by
  induction cs with
  | nil =>
    intro buf hbuf
    simp only [copy_output_aux, List.append_nil]
    by_cases h : buf = []
    · simp [h, readLines]
    · have hrev : '\n' ∉ buf.reverse := fun hm => hbuf (List.mem_reverse.mp hm)
      have hne : buf.reverse ≠ [] := by simpa using h
      rw [readLines_no_nl buf.reverse hrev hne]
      simp [h]
  | cons c rest ih =>
    intro buf hbuf
    by_cases hc : c = '\n'
    · subst hc
      have hrev : '\n' ∉ buf.reverse := fun hm => hbuf (List.mem_reverse.mp hm)
      simp only [copy_output_aux, if_pos rfl]
      rw [readLines_append_nl buf.reverse rest hrev, List.foldr_cons,
        ih [] (by simp)]
      simp
    · simp only [copy_output_aux, hc, if_false]
      rw [ih (c :: buf) (by
        intro hm
        rcases List.mem_cons.mp hm with h | h
        · exact hc h.symm
        · exact hbuf h)]
      simp

/-- The record emitter processes its stream line by line. -/
theorem copy_output_eq (parse : String → Option Json) (pn ip it : String) (cs : List Char) :
    copy_output parse pn ip it cs =
      (readLines cs).foldr (fun l acc => emitLine parse pn ip it l ++ acc) [] := by
  rw [copy_output, copy_output_aux_eq parse pn ip it cs [] (by simp)]
  rfl

/-! Serialized records occupy a single line: the serializer never emits a
raw line feed (strings escape it as backslash-n). -/

theorem hexDigitLower_ne_nl : ∀ d < 16, hexDigitLower d ≠ '\n' := by decide

theorem natDecimalAux_no_nl : ∀ n acc, '\n' ∉ acc → '\n' ∉ natDecimalAux n acc := by
  intro n
  induction n using Nat.strong_induction_on with
  | _ n ih =>
    intro acc hacc
    rw [natDecimalAux]
    by_cases h : n < 10
    · simp only [h, if_true]
      intro hm
      rcases List.mem_cons.mp hm with hm | hm
      · exact hexDigitLower_ne_nl n (by omega) hm.symm
      · exact hacc hm
    · simp only [h, if_false]
      apply ih (n / 10) (Nat.div_lt_self (by omega) (by norm_num))
      intro hm
      rcases List.mem_cons.mp hm with hm | hm
      · exact hexDigitLower_ne_nl (n % 10) (by omega) hm.symm
      · exact hacc hm

theorem intDecimal_no_nl (i : Int) : '\n' ∉ intDecimal i := by
  rw [intDecimal]
  by_cases h : i < 0
  · simp only [h, if_true]
    intro hm
    rcases List.mem_cons.mp hm with hm | hm
    · exact absurd hm (by decide)
    · exact natDecimalAux_no_nl _ [] (by simp) hm
  · simp only [h, if_false]
    exact natDecimalAux_no_nl _ [] (by simp)

theorem escapeChar_no_nl (c : Char) : '\n' ∉ escapeChar c := by
  rw [escapeChar]
  split_ifs with h1 h2 h3 h4 h5 h6 h7 h8
  · decide
  · decide
  · decide
  · decide
  · decide
  · decide
  · decide
  · intro hm
    have hd1 := hexDigitLower_ne_nl (c.toNat / 16) (by omega)
    have hd2 := hexDigitLower_ne_nl (c.toNat % 16) (by omega)
    simp only [List.mem_cons, List.not_mem_nil, or_false] at hm
    rcases hm with h | h | h | h | h | h <;>
      first
        | exact absurd h (by decide)
        | exact hd1 h.symm
        | exact hd2 h.symm
  · intro hm
    rcases List.mem_singleton.mp hm with h
    exact h5 h.symm

theorem escapeChars_no_nl (cs : List Char) : '\n' ∉ escapeChars cs := by
  rw [escapeChars]
  intro hm
  rcases List.mem_flatten.mp hm with ⟨l, hl, hcl⟩
  rcases List.mem_map.mp hl with ⟨c, _, rfl⟩
  exact escapeChar_no_nl c hcl

theorem jsonQuote_no_nl (s : String) : '\n' ∉ jsonQuote s := by
  rw [jsonQuote]
  intro hm
  rcases List.mem_cons.mp hm with h | h
  · exact absurd h (by decide)
  · rcases List.mem_append.mp h with h | h
    · exact escapeChars_no_nl s.data h
    · rcases List.mem_singleton.mp h with h
      exact absurd h (by decide)

theorem serialize_no_nl_bound : ∀ n : Nat,
    (∀ j : Json, sizeOf j ≤ n → '\n' ∉ serializeJson j) ∧
    (∀ xs : List Json, sizeOf xs ≤ n → '\n' ∉ serializeArr xs) ∧
    (∀ fs : List (String × Json), sizeOf fs ≤ n → '\n' ∉ serializeObj fs) := by
  intro n
  induction n with
  | zero =>
    refine ⟨?_, ?_, ?_⟩ <;> intro x hx <;> exfalso
    · cases x <;> simp_arith at hx
    · cases x <;> simp_arith at hx
    · cases x <;> simp_arith at hx
  | succ n ih =>
    obtain ⟨ihJ, ihA, ihO⟩ := ih
    refine ⟨?_, ?_, ?_⟩
    · intro j hj
      cases j with
      | null => rw [serializeJson]; decide
      | bool b => rw [serializeJson]; cases b <;> decide
      | num i => rw [serializeJson]; exact intDecimal_no_nl i
      | str s => rw [serializeJson]; exact jsonQuote_no_nl s
      | arr xs =>
        rw [serializeJson]
        intro hm
        rcases List.mem_cons.mp hm with h | h
        · exact absurd h (by decide)
        · rcases List.mem_append.mp h with h | h
          · have hs : sizeOf xs ≤ n := by
              have := hj
              simp_arith at this
              omega
            exact ihA xs hs h
          · rcases List.mem_singleton.mp h with h
            exact absurd h (by decide)
      | obj fs =>
        rw [serializeJson]
        intro hm
        rcases List.mem_cons.mp hm with h | h
        · exact absurd h.symm (by decide)
        · rcases List.mem_append.mp h with h | h
          · have hs : sizeOf fs ≤ n := by
              have := hj
              simp_arith at this
              omega
            exact ihO fs hs h
          · rcases List.mem_singleton.mp h with h
            exact absurd h (by decide)
    · intro xs hxs
      cases xs with
      | nil => rw [serializeArr]; simp
      | cons x t =>
        cases t with
        | nil =>
          rw [serializeArr]
          apply ihJ x
          simp_arith at hxs
          omega
        | cons y rest =>
          rw [serializeArr]
          intro hm
          rcases List.mem_append.mp hm with h | h
          · have hs : sizeOf x ≤ n := by
              simp_arith at hxs
              omega
            exact ihJ x hs h
          · rcases List.mem_cons.mp h with h | h
            · exact absurd h (by decide)
            · have hs : sizeOf (y :: rest) ≤ n := by
                simp_arith at hxs ⊢
                omega
              exact ihA (y :: rest) hs h
    · intro fs hfs
      cases fs with
      | nil => rw [serializeObj]; simp
      | cons kv t =>
        obtain ⟨k, v⟩ := kv
        cases t with
        | nil =>
          rw [serializeObj]
          intro hm
          rcases List.mem_append.mp hm with h | h
          · exact jsonQuote_no_nl k h
          · rcases List.mem_cons.mp h with h | h
            · exact absurd h (by decide)
            · have hs : sizeOf v ≤ n := by
                simp_arith at hfs
                omega
              exact ihJ v hs h
        | cons p rest =>
          rw [serializeObj]
          intro hm
          rcases List.mem_append.mp hm with h | h
          · rcases List.mem_append.mp h with h | h
            · exact jsonQuote_no_nl k h
            · rcases List.mem_cons.mp h with h | h
              · exact absurd h (by decide)
              · have hs : sizeOf v ≤ n := by
                  simp_arith at hfs
                  omega
                exact ihJ v hs h
          · rcases List.mem_cons.mp h with h | h
            · exact absurd h (by decide)
            · have hs : sizeOf (p :: rest) ≤ n := by
                simp_arith at hfs ⊢
                omega
              exact ihO (p :: rest) hs h

/-- The serializer never emits a raw line feed. -/
theorem serializeJson_no_nl (j : Json) : '\n' ∉ serializeJson j :=
  (serialize_no_nl_bound (sizeOf j)).1 j le_rfl

/-- Claim C1 (amended): the record emitter writes, for every line of the stream, exactly one
serialized JSON object with keys data, path, plugin, type followed by a
single newline; the payload is the parsed JSON value of the
trailing-whitespace-trimmed line when it parses, otherwise that trimmed
line as a JSON string; and no serialized record contains a raw line feed,
so every record occupies exactly one sink line.  (Amended from the claim:
the code trims all trailing whitespace, not only CR/LF.) -/
theorem copy_output_record_format (parse : String → Option Json) (pn ip it : String)
    (cs : List Char) :
    copy_output parse pn ip it cs =
      (readLines cs).foldr (fun line acc =>
        serializeJson (Json.obj [
          ("data", (parse (String.mk (trimEndChars line))).getD
            (Json.str (String.mk (trimEndChars line)))),
          ("path", Json.str ip), ("plugin", Json.str pn), ("type", Json.str it)]) ++
          '\n' :: acc) [] ∧
    (∀ line : List Char, '\n' ∉ serializeJson (mkRecord parse pn ip it line)) := by
  constructor
  · rw [copy_output_eq]
    congr 1
    funext line acc
    rw [emitLine, mkRecord, payloadOf]
    cases hp : parse (String.mk (trimEndChars line)) <;> simp [hp]
  · intro line
    exact serializeJson_no_nl _

/-- The claim's payload transformation, following the spec's words: strip
the trailing CR/LF of the input line and nothing else. -/
def trimCrLfChars (cs : List Char) : List Char :=
  (cs.reverse.dropWhile (fun c => c = '\r' || c = '\n')).reverse

/-- A serde_json stand-in for the closed refutation below: it rejects every
string.  The only strings it is applied to there are "x" and "x" followed
by a tab, neither of which is a valid JSON document, so serde_json's
`from_str` fails on them as well. -/
def parseStub : String → Option Json := fun _ => none

/-- Claim C1 refutation as stated: on the input line consisting of an x, a tab and a line
feed, the emitter's output differs from the output mandated by the claim
(which strips only the trailing CR/LF): the code also strips the tab. -/
theorem copy_output_crlf_counterexample :
    copy_output parseStub "foo" "p" "t" ("x\t\n".data) ≠
      (readLines ("x\t\n".data)).foldr (fun line acc =>
        serializeJson (Json.obj [
          ("data", (parseStub (String.mk (trimCrLfChars line))).getD
            (Json.str (String.mk (trimCrLfChars line)))),
          ("path", Json.str "p"), ("plugin", Json.str "foo"), ("type", Json.str "t")]) ++
          '\n' :: acc) [] := by
  decide

/-! ### pre_process.rs: classification and task preparation (claims C2, C4, C5) -/

/-- src/pre_process.rs: `PreProcessor` — the plugin table and the compiled
plain and hex header patterns.  Compiled regexes are opaque matchers from
the external regex engine, modelled as boolean functions on strings; a
fixed instance iterates its tables in a fixed order, modelled by
association lists. -/
structure PreProcessor where
  plugins : List (String × Plugin)
  compiled : List (String × (String → Bool))
  compiled_hex : List (String × (String → Bool))

/-- Rust `format!` with format spec 02X: one uppercase hex digit. -/
def hexDigitUpper (d : Nat) : Char :=
  if d < 10 then Char.ofNat (48 + d) else Char.ofNat (55 + d)

/-- One byte (`u8`) as two uppercase hex digits. -/
def hexByteUpper (b : Nat) : List Char :=
  [hexDigitUpper (b % 256 / 16), hexDigitUpper (b % 256 % 16)]

/-- src/pre_process.rs `get_file_type`: the uppercase hex encoding of the
head bytes. -/
def hexEncodeUpper (bs : List Nat) : List Char := (bs.map hexByteUpper).flatten

/-- src/pre_process.rs `get_file_type`: try each plain pattern against the
lossy-decoded prefix, then each hex pattern against the uppercase hex
encoding of the prefix; the first match in the instance's iteration order
wins.  The UTF-8 lossy decoder (std `from_utf8_lossy`) is a parameter. -/
def get_file_type (pp : PreProcessor) (lossy : List Nat → String) (head : List Nat) :
    Option String :=
  match pp.compiled.find? (fun tr => tr.2 (lossy head)) with
  | some tr => some tr.1
  | none =>
    match pp.compiled_hex.find? (fun tr => tr.2 (String.mk (hexEncodeUpper head))) with
    | some tr => some tr.1
    | none => none

/-- src/pre_process.rs `get_file_type` takes `&self`: an invocation returns
its result together with the classifier state, which it cannot mutate. -/
def get_file_type_call (pp : PreProcessor) (lossy : List Nat → String) (head : List Nat) :
    Option String × PreProcessor :=
  (get_file_type pp lossy head, pp)

/-- src/pre_process.rs: `PreProcessedInput` — the prepared task.  The
prepared-plugin payload is polymorphic: plugin preparation is modelled by
the `prep` parameter of `pre_process`. -/
structure PreProcessedInput (P : Type) where
  task_id : TaskId
  item_path : String
  item_type : String
  plugin : P
  data : List Nat
deriving DecidableEq, Repr

/-- The warn/info records emitted by the pre-processor. -/
inductive LogEvent
  | warnUnknownType (item_path : String)
  | warnNotInConfig (item_path : String) (item_type : String)
  | infoProcessing (item_path : String) (item_type : String) (plugin_name : String)
deriving DecidableEq, Repr

def LogEvent.isWarn : LogEvent → Bool
  | .warnUnknownType _ => true
  | .warnNotInConfig _ _ => true
  | .infoProcessing _ _ _ => false

/-- src/pre_process.rs `pre_process`: read up to 4096 bytes into a buffer,
classify, look the tag up in the plugin table, prepare the plugin, and
return the task whose data is the buffer chained with the remainder —
or skip with a warning. -/
def pre_process {P : Type} (pp : PreProcessor) (lossy : List Nat → String)
    (prep : Plugin → Option String → P) (task_id : TaskId) (item_path : String)
    (file_path : Option String) (data : List Nat) :
    Option (PreProcessedInput P) × List LogEvent :=
  let buf := data.take 4096
  match get_file_type pp lossy buf with
  | some item_type =>
    match pp.plugins.lookup item_type with
    | some plugin =>
      (some { task_id := task_id, item_path := item_path, item_type := item_type,
              plugin := prep plugin file_path, data := buf ++ data.drop 4096 },
       [LogEvent.infoProcessing item_path item_type plugin.name])
    | none => (none, [LogEvent.warnNotInConfig item_path item_type])
  | none => (none, [LogEvent.warnUnknownType item_path])

/-- Claim C2: whenever the pre-processor returns a task, the task's data reader
yields exactly the original input bytes — the prefix consumed for
classification, re-chained in front of the remainder, reproduces the
original byte sequence. -/
theorem pre_process_data_preserved {P : Type} (pp : PreProcessor)
    (lossy : List Nat → String) (prep : Plugin → Option String → P)
    (task_id : TaskId) (item_path : String) (file_path : Option String)
    (data : List Nat) (ppi : PreProcessedInput P)
    (h : (pre_process pp lossy prep task_id item_path file_path data).1 = some ppi) :
    ppi.data = data := by
  cases hft : get_file_type pp lossy (data.take 4096) with
  | none => simp [pre_process, hft] at h
  | some t =>
    cases hlk : pp.plugins.lookup t with
    | none => simp [pre_process, hft, hlk] at h
    | some plugin =>
      simp only [pre_process, hft, hlk, Option.some.injEq] at h
      subst h
      exact List.take_append_drop 4096 data

/-- Claim C4: the pre-processor returns a task exactly when the classifier
returns a tag that has a plugin in the config; otherwise it skips after
emitting exactly one warning log record. -/
theorem pre_process_skip_iff {P : Type} (pp : PreProcessor)
    (lossy : List Nat → String) (prep : Plugin → Option String → P)
    (task_id : TaskId) (item_path : String) (file_path : Option String)
    (data : List Nat) :
    ((pre_process pp lossy prep task_id item_path file_path data).1.isSome = true ↔
      ∃ t, get_file_type pp lossy (data.take 4096) = some t ∧
        (pp.plugins.lookup t).isSome = true) ∧
    ((pre_process pp lossy prep task_id item_path file_path data).1 = none →
      ∃ w, (pre_process pp lossy prep task_id item_path file_path data).2 = [w] ∧
        w.isWarn = true) := by
  cases hft : get_file_type pp lossy (data.take 4096) with
  | none =>
    refine ⟨⟨fun hs => ?_, fun hex => ?_⟩, fun _ => ⟨LogEvent.warnUnknownType item_path, ?_, rfl⟩⟩
    · simp [pre_process, hft] at hs
    · rcases hex with ⟨t, hT, _⟩
      exact Option.noConfusion hT
    · simp [pre_process, hft]
  | some t =>
    cases hlk : pp.plugins.lookup t with
    | none =>
      refine ⟨⟨fun hs => ?_, fun hex => ?_⟩,
        fun _ => ⟨LogEvent.warnNotInConfig item_path t, ?_, rfl⟩⟩
      · simp [pre_process, hft, hlk] at hs
      · rcases hex with ⟨t2, hT, hlk2⟩
        have ht2 := Option.some.inj hT
        subst ht2
        rw [hlk] at hlk2
        exact absurd hlk2 (by simp)
      · simp [pre_process, hft, hlk]
    | some plugin =>
      refine ⟨⟨fun _ => ⟨t, rfl, ?_⟩, fun _ => ?_⟩, fun hc => ?_⟩
      · rw [hlk]
        rfl
      · simp [pre_process, hft, hlk]
      · exfalso
        simp [pre_process, hft, hlk] at hc

/-- Claim C5: classification is a pure function of the prefix bytes — two
invocations on identical prefixes return the same tag, an invocation
leaves the classifier state unchanged, and a later invocation after any
number of earlier ones still returns the same result. -/
theorem get_file_type_pure (pp : PreProcessor) (lossy : List Nat → String)
    (h1 h2 : List Nat) (heq : h1 = h2) :
    (get_file_type_call pp lossy h1).1 = (get_file_type_call pp lossy h2).1 ∧
    (get_file_type_call pp lossy h1).2 = pp ∧
    (get_file_type_call (get_file_type_call pp lossy h1).2 lossy h2).1 =
      (get_file_type_call pp lossy h2).1 := by
  subst heq
  exact ⟨rfl, rfl, rfl⟩

/-! Concrete instances used by the closed witnesses. -/

/-- A classifier with no rules: every prefix is unknown. -/
def ppEmpty : PreProcessor := ⟨[], [], []⟩

/-- Stand-in for std's `from_utf8_lossy` in closed witnesses whose matcher
ignores the decoded text. -/
def lossyStub : List Nat → String := fun _ => ""

/-- The shell-script plugin of the repository's own tests. -/
def pluginSh : Plugin :=
  { name := "foo", path := "/bin/sh", args := some ["$INPUT"], input := none,
    output := some OutputType.stdout, unpacker := none }

/-- A classifier whose single plain rule matches every prefix, mapping it
to the shell-script plugin. -/
def ppSh : PreProcessor :=
  ⟨[("script/sh", pluginSh)], [("script/sh", fun _ => true)], []⟩

/-- Trivial plugin preparation for closed witnesses. -/
def prepStub : Plugin → Option String → Unit := fun _ _ => ()

theorem pre_process_data_preserved_witness :
    ({ task_id := ⟨0, 0⟩, item_path := "p", item_type := "script/sh",
       plugin := (), data := [35, 33, 10] } : PreProcessedInput Unit).data = [35, 33, 10] :=
  pre_process_data_preserved ppSh lossyStub prepStub ⟨0, 0⟩ "p" none [35, 33, 10] _ rfl

theorem pre_process_skip_iff_witness :
    (((pre_process ppEmpty lossyStub prepStub ⟨0, 0⟩ "p" none [104, 105]).1.isSome = true ↔
      ∃ t, get_file_type ppEmpty lossyStub ([104, 105].take 4096) = some t ∧
        ((ppEmpty.plugins.lookup t).isSome = true)) ∧
    ((pre_process ppEmpty lossyStub prepStub ⟨0, 0⟩ "p" none [104, 105]).1 = none →
      ∃ w, (pre_process ppEmpty lossyStub prepStub ⟨0, 0⟩ "p" none [104, 105]).2 = [w] ∧
        w.isWarn = true)) :=
  pre_process_skip_iff ppEmpty lossyStub prepStub ⟨0, 0⟩ "p" none [104, 105]

theorem get_file_type_pure_witness :
    ((get_file_type_call ppSh lossyStub [35, 33]).1 =
      (get_file_type_call ppSh lossyStub [35, 33]).1 ∧
    (get_file_type_call ppSh lossyStub [35, 33]).2 = ppSh ∧
    (get_file_type_call (get_file_type_call ppSh lossyStub [35, 33]).2 lossyStub [35, 33]).1 =
      (get_file_type_call ppSh lossyStub [35, 33]).1) :=
  get_file_type_pure ppSh lossyStub [35, 33] [35, 33] rfl

/-! ### File-system effect traces (claims C3, C10)

Stateful handler code is modelled by the ordered list of file-system
actions it performs. -/

/-- One observable file-system action of a handler. -/
inductive FsEvent
  | openRead (p : String)
  | sinkCopy (p : String)
  | sinkCopyStdout
  | logCopy
  | removeFile (p : String)
  | removeDirAll (p : String)
  | spawnProcessFile (p : String)
  | spawnProcessDir (p : String)
  | errorMissing (p : String)
deriving DecidableEq, Repr

/-- src/output.rs: `OutputData` — the payload variants of an Output record
(pipes are identified only by their variant here). -/
inductive OutputDataM
  | file (path : String)
  | stdout
  | logStdout
  | logStderr
deriving DecidableEq, Repr

/-- src/output.rs `Output::handle`: the file-system actions of the output
worker consuming one Output record.  `openOk` says whether `File::open`
succeeded; on failure the handler logs a diagnostic and returns the error.
In no branch does the handler delete anything. -/
def output_handle (openOk : Bool) : OutputDataM → List FsEvent
  | .file path =>
    if openOk then [FsEvent.openRead path, FsEvent.sinkCopy path]
    else [FsEvent.errorMissing path]
  | .stdout => [FsEvent.sinkCopyStdout]
  | .logStdout => [FsEvent.logCopy]
  | .logStderr => [FsEvent.logCopy]

/-- src/process.rs: the per-file body of `handle_output_files` for a
non-unpacker dir output: open the file, copy it to the sink, delete it. -/
def perFileEvents (f : String) : List FsEvent :=
  [FsEvent.openRead f, FsEvent.sinkCopy f, FsEvent.removeFile f]

/-- src/process.rs `handle_output_files`: actions after the child exited,
given the walk of the output directory (`listing`). -/
def handle_output_files (output_type : OutputType) (unpacker : Bool)
    (output_path : String) (listing : List String) : List FsEvent :=
  if output_type = OutputType.file then
    if unpacker then [FsEvent.spawnProcessFile output_path]
    else perFileEvents output_path
  else if output_type = OutputType.dir then
    if unpacker then [FsEvent.spawnProcessDir output_path]
    else (listing.map perFileEvents).flatten ++ [FsEvent.removeDirAll output_path]
  else []

theorem perFile_block_infix (listing : List String) (f : String) (hf : f ∈ listing) :
    ∃ s t, (listing.map perFileEvents).flatten =
      s ++ [FsEvent.sinkCopy f, FsEvent.removeFile f] ++ t := by
  induction listing with
  | nil => exact absurd hf (List.not_mem_nil f)
  | cons a rest ih =>
    rcases List.mem_cons.mp hf with h | h
    · subst h
      exact ⟨[FsEvent.openRead f], (rest.map perFileEvents).flatten, by
        simp [perFileEvents]⟩
    · rcases ih h with ⟨s, t, hst⟩
      exact ⟨perFileEvents a ++ s, t, by
        simp only [List.map_cons, List.flatten_cons, hst]
        simp⟩

/-- Claim C3 (amended): in the threadpool pipeline, `handle_output_files` deletes
a non-unpacker output file immediately after copying it to the sink; for a
non-unpacker dir output every file of the directory walk is copied and then
deleted, and the recursive directory removal is the final action, after all
per-file processing.  In the channel pipeline, the consumer of an Output
record performs no deletion at all. -/
theorem handle_output_files_cleanup (p : String) (listing : List String) :
    handle_output_files OutputType.file false p listing =
      [FsEvent.openRead p, FsEvent.sinkCopy p, FsEvent.removeFile p] ∧
    (∀ f ∈ listing, ∃ s t, handle_output_files OutputType.dir false p listing =
      s ++ [FsEvent.sinkCopy f, FsEvent.removeFile f] ++ t) ∧
    (handle_output_files OutputType.dir false p listing).getLast? =
      some (FsEvent.removeDirAll p) ∧
    (∀ (openOk : Bool) (d : OutputDataM) (q : String),
      FsEvent.removeFile q ∉ output_handle openOk d ∧
      FsEvent.removeDirAll q ∉ output_handle openOk d) := by
  have hdir : handle_output_files OutputType.dir false p listing =
      (listing.map perFileEvents).flatten ++ [FsEvent.removeDirAll p] := by
    simp [handle_output_files]
  refine ⟨rfl, fun f hf => ?_, ?_, fun openOk d q => ?_⟩
  · rcases perFile_block_infix listing f hf with ⟨s, t, hst⟩
    refine ⟨s, t ++ [FsEvent.removeDirAll p], ?_⟩
    rw [hdir, hst]
    simp
  · rw [hdir]
    exact List.getLast?_concat _
  · cases d with
    | file path =>
      by_cases h : openOk = true
      · subst h
        simp [output_handle]
      · rw [Bool.not_eq_true] at h
        subst h
        simp [output_handle]
    | stdout => simp [output_handle]
    | logStdout => simp [output_handle]
    | logStderr => simp [output_handle]

/-- Claim C3 refutation as stated: the consumer of an Output File
record (the output worker running `Output::handle` in src/output.rs) does
not delete the output file after reading it — its full action trace on a
successfully opened file contains no removal. -/
theorem output_handle_no_delete_counterexample :
    FsEvent.removeFile "out" ∉ output_handle true (OutputDataM.file "out") := by
  decide

/-! ### input.rs `Input::handle` for a File input (claim C10) -/

/-- src/input.rs `Input::handle`, `InputData::File(path, temp)` arm: open
the file, pre-process; when a task is produced run it (its actions are the
`run_task_events` parameter); finally, whether or not the item was skipped,
delete the file when `temp` is set. -/
def input_handle_file {P : Type} (pp : PreProcessor) (lossy : List Nat → String)
    (prep : Plugin → Option String → P)
    (run_task_events : PreProcessedInput P → List FsEvent)
    (task_id : TaskId) (item_path : String) (path : String) (temp : Bool)
    (content : List Nat) : List FsEvent :=
  FsEvent.openRead path ::
    ((match (pre_process pp lossy prep task_id item_path (some path) content).1 with
      | some ppi => run_task_events ppi
      | none => []) ++
     (if temp then [FsEvent.removeFile path] else []))

/-- Claim C10: when a temporary File input is skipped by the pre-processor, the
handler still deletes the temporary file before returning: its whole trace
is the open followed by the removal. -/
theorem input_handle_skipped_temp_deleted {P : Type} (pp : PreProcessor)
    (lossy : List Nat → String) (prep : Plugin → Option String → P)
    (run_task_events : PreProcessedInput P → List FsEvent)
    (task_id : TaskId) (item_path : String) (path : String) (content : List Nat)
    (hskip : (pre_process pp lossy prep task_id item_path (some path) content).1 = none) :
    input_handle_file pp lossy prep run_task_events task_id item_path path true content =
      [FsEvent.openRead path, FsEvent.removeFile path] := by
  rw [input_handle_file, hskip]
  rfl

theorem input_handle_skipped_temp_deleted_witness :
    input_handle_file ppEmpty lossyStub prepStub (fun _ => []) ⟨0, 0⟩ "p" "/w/f" true
      [104, 105] = [FsEvent.openRead "/w/f", FsEvent.removeFile "/w/f"] :=
  input_handle_skipped_temp_deleted ppEmpty lossyStub prepStub (fun _ => [])
    ⟨0, 0⟩ "p" "/w/f" [104, 105] rfl

/-! ### thread.rs `Pool::join` (claim C9) -/

/-- The state `join` polls: its local `active_threads` counter (a `usize`)
and the three channels — Input queue, Output queue, activity queue.  Only
the sizes of the two work queues matter to the drain condition. -/
structure PoolState where
  active : Nat
  inq : Nat
  outq : Nat
  actq : List Bool
deriving DecidableEq, Repr

/-- src/thread.rs `Pool::join`, the loop condition:
`active_threads > 0 or input queue nonempty or output queue nonempty or
activity queue nonempty`. -/
def drainCond (s : PoolState) : Bool :=
  decide (0 < s.active) || decide (s.inq ≠ 0) || decide (s.outq ≠ 0) || !s.actq.isEmpty

/-- Worker activity concurrent with `join`: workers enqueue and dequeue
work items and append busy/idle markers; they never touch join's local
`active_threads` counter and never consume activity markers. -/
inductive EnvStep : PoolState → PoolState → Prop
  | pushIn (s : PoolState) : EnvStep s { s with inq := s.inq + 1 }
  | popIn (s : PoolState) : EnvStep s { s with inq := s.inq - 1 }
  | pushOut (s : PoolState) : EnvStep s { s with outq := s.outq + 1 }
  | popOut (s : PoolState) : EnvStep s { s with outq := s.outq - 1 }
  | pushAct (s : PoolState) (b : Bool) : EnvStep s { s with actq := s.actq ++ [b] }

/-- src/thread.rs `Pool::join`: while the drain condition holds, receive
one activity marker (blocking until a worker sends one) and add one for a
busy marker or subtract one (wrapping as a `usize`) for an idle marker;
return once a check finds the condition false. -/
inductive JoinReturns : PoolState → PoolState → Prop
  | done (s : PoolState) (h : drainCond s = false) : JoinReturns s s
  | step (s u : PoolState) (b : Bool) (rest : List Bool)
      (hc : drainCond s = true) (hq : s.actq = b :: rest)
      (h : JoinReturns
        { s with
          active := (if b then s.active + 1 else s.active + (U64MOD - 1)) % U64MOD,
          actq := rest } u) :
      JoinReturns s u
  | env (s t u : PoolState) (he : EnvStep s t) (h : JoinReturns t u) : JoinReturns s u

/-- Claim C9: `join()` returns only in a state where all four drain conditions
are simultaneously false — the active-worker count is zero and the input,
output and activity queues are all empty. -/
theorem join_returns_drained (s u : PoolState) (h : JoinReturns s u) :
    u.active = 0 ∧ u.inq = 0 ∧ u.outq = 0 ∧ u.actq = [] := by
  induction h with
  | done s hdc =>
    simp only [drainCond, Bool.or_eq_false_iff, decide_eq_false_iff_not,
      Bool.not_eq_true', List.isEmpty_eq_false] at hdc
    refine ⟨by omega, by omega, by omega, ?_⟩
    rcases hdc with ⟨⟨⟨_, _⟩, _⟩, hq⟩
    simpa [List.isEmpty_iff] using hq
  | step s u b rest hc hq h ih => exact ih
  | env s t u he h ih => exact ih

/-- Closed witness: a join derivation that consumes a busy and an idle
marker and then observes the drained state. -/
theorem join_returns_drained_witness :
    (⟨0, 0, 0, []⟩ : PoolState).active = 0 ∧ (⟨0, 0, 0, []⟩ : PoolState).inq = 0 ∧
    (⟨0, 0, 0, []⟩ : PoolState).outq = 0 ∧ (⟨0, 0, 0, []⟩ : PoolState).actq = [] := by
  have hwrap : (1 + (U64MOD - 1)) % U64MOD = 0 := by norm_num [U64MOD]
  have h0 : JoinReturns ⟨0, 0, 0, []⟩ ⟨0, 0, 0, []⟩ := JoinReturns.done _ (by decide)
  have h1 : JoinReturns ⟨1, 0, 0, [false]⟩ ⟨0, 0, 0, []⟩ := by
    refine JoinReturns.step _ _ false [] rfl rfl ?_
    simpa [hwrap] using h0
  have h2 : JoinReturns ⟨0, 0, 0, [true, false]⟩ ⟨0, 0, 0, []⟩ := by
    refine JoinReturns.step _ _ true [false] rfl rfl ?_
    simpa [Nat.mod_eq_of_lt (lt_trans Nat.zero_lt_one one_lt_U64MOD)] using h1
  exact join_returns_drained _ _ h2

/-! ### Claim-level theorems for C7 and C8 -/

/-- Claim C7 (amended): TaskId u64 components are pairwise distinct as long
as fewer than two to the sixty-fourth Inputs are created in the run — the
atomic counter assigns successive values, which only repeat after a `u64`
wraparound. -/
theorem nthTaskU64_inj (i j : Nat) (hi : i < U64MOD) (hj : j < U64MOD) (hne : i ≠ j) :
    nthTaskU64 i ≠ nthTaskU64 j := by
  rw [nthTaskU64_eq, nthTaskU64_eq, Nat.mod_eq_of_lt hi, Nat.mod_eq_of_lt hj]
  exact hne

theorem nthTaskU64_inj_witness : nthTaskU64 0 ≠ nthTaskU64 1 :=
  nthTaskU64_inj 0 1 (by norm_num [U64MOD]) (by norm_num [U64MOD]) (by decide)

/-- Claim C7 refutation as stated: in a run long enough to wrap the `u64`
counter, the first call and the call numbered two to the sixty-fourth draw
the same u64 component even though they are distinct calls. -/
theorem nthTaskU64_wrap_counterexample :
    nthTaskU64 U64MOD = nthTaskU64 0 ∧ U64MOD ≠ 0 := by
  constructor
  · rw [nthTaskU64_eq, nthTaskU64_eq]
    simp
  · norm_num [U64MOD]

/-- Claim C8 (amended): two calls to the temporary-path generator return
distinct paths whenever the 64-bit random values they draw are distinct —
the hex formatting and path construction are injective on `u64` values;
collision-freedom of the paths is therefore exactly collision-freedom of
the random draws, which the generator does not guarantee. -/
theorem gen_path_inj (cwd : List String) (r1 r2 : Nat) (h1 : r1 < U64MOD)
    (h2 : r2 < U64MOD) (hne : r1 ≠ r2) : gen_path cwd r1 ≠ gen_path cwd r2 := by
  intro heq
  apply hne
  apply hexPad16_inj r1 r2 h1 h2
  simpa [gen_path] using heq

theorem gen_path_inj_witness : gen_path [] 0 ≠ gen_path [] 1 :=
  gen_path_inj [] 0 1 (by norm_num [U64MOD]) (by norm_num [U64MOD]) (by decide)

/-- Claim C8 refutation as stated: a run whose random source yields the
same `u64` twice makes two distinct generator calls return the same path —
uniqueness is not guaranteed for all runs. -/
theorem gen_path_run_collision :
    gen_path_run [] [5, 5] 0 = gen_path_run [] [5, 5] 1 ∧ (0 : Nat) ≠ 1 :=
  ⟨rfl, by decide⟩

theorem handle_output_files_cleanup_witness :
    (handle_output_files OutputType.file false "o" ["f1"] =
      [FsEvent.openRead "o", FsEvent.sinkCopy "o", FsEvent.removeFile "o"] ∧
    (∀ f ∈ ["f1"], ∃ s t, handle_output_files OutputType.dir false "o" ["f1"] =
      s ++ [FsEvent.sinkCopy f, FsEvent.removeFile f] ++ t) ∧
    (handle_output_files OutputType.dir false "o" ["f1"]).getLast? =
      some (FsEvent.removeDirAll "o") ∧
    (∀ (openOk : Bool) (d : OutputDataM) (q : String),
      FsEvent.removeFile q ∉ output_handle openOk d ∧
      FsEvent.removeDirAll q ∉ output_handle openOk d)) :=
  handle_output_files_cleanup "o" ["f1"]

end Factory
